import Mathlib

/-!
Verification of the PR-MPNN training/rewiring code.

Shallow embedding of `training/trainer.py` (the `Trainer` class: the train
loop's micro-batched embedding-optimizer stepping, the batch rewiring in
`emb_model_graph_level_pred`, the NaN-label masking, the scheduler stepping
and early-stop logic of `inference`, and the `plot` block-boundary
arithmetic) and of `data/data_preprocess.py` (`RandomSampleTopk.__call__`).

Graphs are modelled as lists of per-graph records (the `Batch.to_data_list`
view of a PyG `Batch`); batched tensors become lists with explicit offset
arithmetic; rationals stand for the exact real arithmetic on weights.
-/

namespace PRMPNN

/-- A single graph of the batch (the `Data` view): node count, node
features, locally-indexed edge list, and target values. -/
structure PlainGraph where
  nnodes : Nat
  x : List Int
  edge_index : List (Nat × Nat)
  y : List Int
deriving Repr, DecidableEq, Inhabited

/-- The batched (disjoint-union) graph produced by the rewiring step:
flattened node features, globally-indexed edges, the optional per-edge
weight channel, the `batch` id vector and the targets. -/
structure BatchedGraph where
  x : List Int
  edge_index : List (Nat × Nat)
  edge_weight : Option (List ℚ)
  batchVec : List Nat
  y : List Int
deriving Repr, DecidableEq

/-! ### Trainer.train: micro-batched embedding-optimizer stepping
(`trainer.py` lines 312-317). -/

/-- The stepping condition of `trainer.py` line 313:
`batch_id % micro_batch_embd == micro_batch_embd - 1 or batch_id >= len(dataloader) - 1`. -/
def embdStepTrigger (m B i : Nat) : Bool :=
  (i % m == m - 1) || (B - 1 ≤ i)

/-- Number of times `optimizer_embd.step()` (immediately followed by
`optimizer_embd.zero_grad()`) runs during one epoch of `Trainer.train`
with `micro_batch_embd = m` over a dataloader of `B` minibatches. -/
def embdStepCount (m B : Nat) : Nat :=
  ((List.range B).filter (embdStepTrigger m B)).length

/-! ### Trainer.inference: early stopping (`trainer.py` lines 412-418). -/

/-- Modelled from the spec: the `IsBetter` comparator from
`data.data_utils` (that module is not part of the excerpt).  The spec says
the comparator is task-type dependent — higher-is-better for
accuracy/ROC-AUC, lower-is-better for RMSE/loss-only regression — and
`Trainer` initialises `best_val_metric = None`, against which any first
metric counts as an improvement. -/
def isBetter (higherBetter : Bool) (new : ℚ) (best : Option ℚ) : Bool :=
  match best with
  | none => true
  | some b => if higherBetter then b < new else new < b

/-- The mutable early-stop state of `Trainer`: `best_val_metric` and
`patience`. -/
structure EarlyStopState where
  best : Option ℚ
  patience : Nat
deriving Repr, DecidableEq

/-- One non-test `Trainer.inference` tail (lines 412-418): improve → record
best, reset patience, no stop; otherwise increment patience and signal
early stop when it exceeds `max_patience`. -/
def inferenceUpdate (higherBetter : Bool) (maxPatience : Nat)
    (s : EarlyStopState) (m : ℚ) : EarlyStopState × Bool :=
  if isBetter higherBetter m s.best then
    ({ best := some m, patience := 0 }, false)
  else
    let p := s.patience + 1
    ({ s with patience := p }, decide (maxPatience < p))

/-- Fold `inferenceUpdate` over a sequence of validation metrics,
collecting the `early_stop` flag returned by each call. -/
def runInference (higherBetter : Bool) (maxPatience : Nat) :
    EarlyStopState → List ℚ → List Bool
  | _, [] => []
  | s, m :: ms =>
    let r := inferenceUpdate higherBetter maxPatience s m
    r.2 :: runInference higherBetter maxPatience r.1 ms

/-! ### NaN-label masking (`trainer.py` lines 303-304 and 378-379). -/

/-- A scalar label that may be NaN (IEEE floats compare unequal to
themselves exactly when NaN). -/
inductive FLabel where
  | nan : FLabel
  | val (q : ℚ) : FLabel
deriving Repr, DecidableEq

/-- IEEE `==` on labels: NaN is unequal to everything, itself included. -/
def feq : FLabel → FLabel → Bool
  | .nan, _ => false
  | _, .nan => false
  | .val a, .val b => a == b

/-- `is_labeled = data.y == data.y` (elementwise self-comparison). -/
def isLabeledMask (ys : List FLabel) : List Bool :=
  ys.map (fun y => feq y y)

/-- Boolean-mask tensor indexing `t[mask]`: keep the entries whose mask
bit is set. -/
def boolSelect {α : Type} (xs : List α) (m : List Bool) : List α :=
  ((xs.zip m).filter (fun p => p.2)).map (fun p => p.1)

/-- The loss computation shared by `Trainer.train` (lines 303-304) and
`Trainer.inference` (lines 378-379):
`criterion(pred[is_labeled], y[is_labeled])` with `is_labeled = y == y`. -/
def maskedCriterion (crit : List ℚ → List FLabel → ℚ)
    (preds : List ℚ) (ys : List FLabel) : ℚ :=
  crit (boolSelect preds (isLabeledMask ys)) (boolSelect ys (isLabeledMask ys))

/-! ### Scheduler stepping (`trainer.py` lines 402-410). -/

/-- The scheduler kinds distinguished by the non-test `inference` tail. -/
inductive SchedulerKind where
  | reduceLROnPlateau : SchedulerKind
  | stepAgnostic : SchedulerKind
deriving Repr, DecidableEq

/-- The scheduler block of `Trainer.inference` (lines 402-410): returns
how many direction-agnostic `step()` calls ran and the
`NotImplementedError` message if one was raised. -/
def schedulerBlock (sched : SchedulerKind) (schedEmbd : Option SchedulerKind) :
    Nat × Option String :=
  match sched with
  | .reduceLROnPlateau => (0, some "Need to specify max or min plateau")
  | .stepAgnostic =>
    match schedEmbd with
    | none => (1, none)
    | some .reduceLROnPlateau => (1, some "Need to specify max or min plateau")
    | some .stepAgnostic => (2, none)

/-! ### RandomSampleTopk (`data_preprocess.py` lines 171-180). -/

/-- The runtime type of `self.k` in `RandomSampleTopk`: a Python float, an
int, or anything else. -/
inductive SampleKArg where
  | flt (q : ℚ) : SampleKArg
  | int (k : Int) : SampleKArg
  | other : SampleKArg
deriving Repr, DecidableEq

/-- Budget resolution at the top of `RandomSampleTopk.__call__`
(lines 172-177): float → `int(ceil(k * num_nodes))`, int → as-is, anything
else → `TypeError` (modelled as `Except.error`). -/
def resolveK (k : SampleKArg) (numNodes : Nat) : Except Unit Int :=
  match k with
  | .flt q => .ok ⌈q * numNodes⌉
  | .int k => .ok k
  | .other => .error ()

/-- Which path `RandomSampleTopk.__call__` takes after budget resolution:
the trivial collate of `[graph] * ensemble`, or the random-sampling loop
with the resolved budget. -/
inductive RSTOutcome where
  | identityReplicate (gs : List PlainGraph) : RSTOutcome
  | stochastic (k : Int) : RSTOutcome
deriving Repr, DecidableEq

/-- `RandomSampleTopk.__call__` (lines 171-180): resolve the budget, then
either return the graph collated `ensemble` times (when `k >= num_nodes`)
or enter the random-sampling loop. -/
def randomSampleTopkCall (k : SampleKArg) (ensemble : Nat) (g : PlainGraph) :
    Except Unit RSTOutcome :=
  match resolveK k g.nnodes with
  | .error e => .error e
  | .ok kk =>
    if (g.nnodes : Int) ≤ kk then .ok (.identityReplicate (List.replicate ensemble g))
    else .ok (.stochastic kk)

/-! ### Batch rewiring (`Trainer.emb_model_graph_level_pred`,
`trainer.py` lines 139-179). -/

/-- The fully-connected candidate edge space of one graph:
`np.vstack(np.triu_indices(n, k=-n))` (line 143) lists every ordered pair
`(a, b)` with `a, b < n`, in row-major order. -/
def fullGrid (n : Nat) : List (Nat × Nat) :=
  (List.range n).flatMap (fun a => (List.range n).map (fun b => (a, b)))

/-- The in-place mutation of line 143: replace a graph's edge set by the
full candidate grid, keeping everything else. -/
def candGraph (g : PlainGraph) : PlainGraph :=
  { g with edge_index := fullGrid g.nnodes }

/-- The data list fed to `Batch.from_data_list` (lines 141-147):
`graphs * E` (each with full-grid edges) followed by the untouched
original graphs when `include_original_graph` is set. -/
def rewiredList (E : Nat) (includeOrig : Bool) (gs : List PlainGraph) :
    List PlainGraph :=
  (List.replicate E (gs.map candGraph)).flatten ++ (if includeOrig then gs else [])

/-- `Batch.from_data_list` edge collation: globalize each graph's local
edge indices by the cumulative node count of all earlier graphs. -/
def withOffsets : Nat → List PlainGraph → List (Nat × Nat)
  | _, [] => []
  | o, g :: rest =>
    g.edge_index.map (fun p => (p.1 + o, p.2 + o)) ++ withOffsets (o + g.nnodes) rest

/-- The globally-indexed edge list of the collated batch. -/
def batchEdges (gs : List PlainGraph) : List (Nat × Nat) := withOffsets 0 gs

/-- The `batch` id vector of a collated list of graphs: graph `i`
contributes `nnodes i` copies of `i`. -/
def batchVecFrom : Nat → List PlainGraph → List Nat
  | _, [] => []
  | i, g :: rest => List.replicate g.nnodes i ++ batchVecFrom (i + 1) rest

/-- `dat_batch.batch` of the original batch. -/
def origBatchVec (gs : List PlainGraph) : List Nat := batchVecFrom 0 gs

/-- 1-D `torch.Tensor.repeat(k)`: tile the vector `k` times. -/
def tileNat (k : Nat) (l : List Nat) : List Nat := (List.replicate k l).flatten

/-- `dat_batch.num_nodes`. -/
def totalNodes (gs : List PlainGraph) : Nat := (gs.map (·.nnodes)).sum

/-- `dat_batch.num_edges`. -/
def totalEdges (gs : List PlainGraph) : Nat :=
  (gs.map (fun g => g.edge_index.length)).sum

/-- The cumulative node count of the first `j` graphs: `_inc_dict`
offsets, equivalently the start of graph `j`'s node index range. -/
def offsetAt (ns : List Nat) (j : Nat) : Nat := (ns.take j).sum

/-- `node_mask[real_node_node_mask]` in its tensor layout: per graph (in
batch order), per candidate slot (`nnodes²` of them, row-major), the `E`
ensemble channels. -/
abbrev MaskTensor := List (List (List ℚ))

/-- Column `e` of `node_mask[real_node_node_mask]`: every graph's
candidate weights for ensemble member `e`, in batch order. -/
def ensembleColumn (e : Nat) (gsMask : MaskTensor) : List ℚ :=
  gsMask.flatMap (fun gm => gm.map (fun cand => cand.getD e 0))

/-- `node_mask[real_node_node_mask].T.reshape(-1)` (line 149):
ensemble-major flattening of the selected mask entries. -/
def flatSampleWeights (E : Nat) (gsMask : MaskTensor) : List ℚ :=
  (List.range E).flatMap (fun e => ensembleColumn e gsMask)

/-- `edge_index[:, edge_weight.to(torch.bool)]` (lines 156, 176): keep
the edges whose weight is nonzero. -/
def keepNonzero (edges : List (Nat × Nat)) (w : List ℚ) : List (Nat × Nat) :=
  ((edges.zip w).filter (fun p => p.2 != 0)).map (fun p => p.1)

/-- The `include_original_graph or ensemble > 1` branch of
`emb_model_graph_level_pred` (lines 139-164): re-batch the replicated
data list, attach the flattened weights (training) or drop zero-weight
edges (validation), and overwrite the `batch` vector with the original
one tiled over all blocks. -/
def multiRewire (train includeOrig : Bool) (E : Nat) (gs : List PlainGraph)
    (gsMask : MaskTensor) : BatchedGraph :=
  let hs := rewiredList E includeOrig gs
  let w := flatSampleWeights E gsMask ++
    (if includeOrig then List.replicate (totalEdges gs) (1 : ℚ) else [])
  { x := hs.flatMap (·.x)
    edge_index := if train then batchEdges hs else keepNonzero (batchEdges hs) w
    edge_weight := if train then some w else none
    batchVec := tileNat (E + (if includeOrig then 1 else 0)) (origBatchVec gs)
    y := gs.flatMap (·.y) }

/-- `torch.repeat_interleave(torch.arange(n), n)` (line 167). -/
def seRow (n : Nat) : List Nat :=
  (List.range n).flatMap (fun a => List.replicate n a)

/-- `torch.arange(n).repeat(n)` (line 168). -/
def seCol (n : Nat) : List Nat := (List.replicate n (List.range n)).flatten

/-- `torch.hstack` of the per-graph row vectors (line 167). -/
def rowCat (gs : List PlainGraph) : List Nat := gs.flatMap (fun g => seRow g.nnodes)

/-- `torch.hstack` of the per-graph column vectors (line 168). -/
def colCat (gs : List PlainGraph) : List Nat := gs.flatMap (fun g => seCol g.nnodes)

/-- `torch.repeat_interleave(dat_batch._inc_dict[...], dat_batch.nnodes ** 2)`
(line 170): each graph's node offset, repeated once per candidate edge. -/
def edgeIncFrom : Nat → List PlainGraph → List Nat
  | _, [] => []
  | o, g :: rest => List.replicate (g.nnodes * g.nnodes) o ++ edgeIncFrom (o + g.nnodes) rest

/-- `edgeIncFrom` started at offset 0. -/
def edgeIncRI (gs : List PlainGraph) : List Nat := edgeIncFrom 0 gs

/-- Lines 167-170: stack rows over columns and add the per-graph offsets;
the globally-indexed candidate edge list of the single-ensemble branch. -/
def singleCandidates (gs : List PlainGraph) : List (Nat × Nat) :=
  (((rowCat gs).zip (colCat gs)).zip (edgeIncRI gs)).map
    (fun p => (p.1.1 + p.2, p.1.2 + p.2))

/-- `node_mask[real_node_node_mask].squeeze()` (line 166): the single
ensemble channel of every candidate slot, in batch order. -/
def singleWeights (gsMask : MaskTensor) : List ℚ :=
  gsMask.flatMap (fun gm => gm.map (fun c => c.getD 0 0))

/-- The `ensemble = 1`, no-original branch (lines 165-177): overwrite the
original batch's edge set with the weighted candidate space (training) or
with the nonzero-weight candidates (validation). -/
def singleRewire (train : Bool) (gs : List PlainGraph) (gsMask : MaskTensor) :
    BatchedGraph :=
  let w := singleWeights gsMask
  { x := gs.flatMap (·.x)
    edge_index := if train then singleCandidates gs else keepNonzero (singleCandidates gs) w
    edge_weight := if train then some w else none
    batchVec := origBatchVec gs
    y := gs.flatMap (·.y) }

/-- `Trainer.emb_model_graph_level_pred` batch construction (line 139):
dispatch on `include_original_graph or logits.shape[-1] > 1`. -/
def emb_model_graph_level_pred (train includeOrig : Bool) (E : Nat)
    (gs : List PlainGraph) (gsMask : MaskTensor) : BatchedGraph :=
  if includeOrig || decide (1 < E) then multiRewire train includeOrig E gs gsMask
  else singleRewire train gs gsMask

/-- `Trainer.__init__` lines 110-113: with no sampling policy or no IMLE
configuration, `construct_duplicate_data` is `lambda x, *args: (x, None)`;
otherwise it is the rewiring step (whose result is abstracted here). -/
def construct_duplicate_data (samplePolicyNone imleConfigsNone : Bool)
    (b : BatchedGraph) (rewired : BatchedGraph × Option ℚ) :
    BatchedGraph × Option ℚ :=
  if samplePolicyNone || imleConfigsNone then (b, none) else rewired

/-! ### Trainer.plot block boundaries (`trainer.py` lines 220-236). -/

/-- Line 226: `'original' if i >= (unique_graphs * n_ensemble) - 1 else
'rewired'` (Python int arithmetic, so the subtraction is over ℤ). -/
def plotGraphVersionIsOriginal (uniqueGraphs nEnsemble i : Nat) : Bool :=
  decide ((uniqueGraphs * nEnsemble : Int) - 1 ≤ (i : Int))

end PRMPNN

namespace PRMPNN

/-! ## Helper lemmas -/

theorem filter_range_mod_eq (m : Nat) (hm : 1 ≤ m) (b : Nat) :
    ((List.range b).filter (fun i => i % m == m - 1)).length = b / m := by
  induction b with
  | zero => simp
  | succ b ih =>
    rw [List.range_succ, List.filter_append, List.length_append, ih, Nat.succ_div]
    have hbm : b % m < m := Nat.mod_lt _ hm
    by_cases hcase : b % m = m - 1
    · have h1 : (b + 1) % m = 0 := by
        rw [← Nat.mod_add_mod]
        have hsum : b % m + 1 = m := by omega
        rw [hsum, Nat.mod_self]
      rw [if_pos (Nat.dvd_of_mod_eq_zero h1)]
      simp [hcase]
    · have h1 : (b + 1) % m ≠ 0 := by
        rw [← Nat.mod_add_mod]
        have hlt : b % m + 1 < m := by omega
        rw [Nat.mod_eq_of_lt hlt]
        omega
      rw [if_neg (fun hd => h1 (Nat.dvd_iff_mod_eq_zero.mp hd))]
      simp [hcase]

end PRMPNN

namespace PRMPNN

/-- C1: with an embedding optimizer present and `micro_batch_embd = m ≥ 1`,
one epoch of `Trainer.train` over `B` minibatches steps (and then zeroes
the gradient of) the embedding optimizer exactly `⌈B/m⌉` times, and the
step fires on batch `i` exactly when `i % m = m - 1` or `i` is the final
batch. -/
theorem train_embd_step_count (m B : Nat) (hm : 1 ≤ m) :
    embdStepCount m B = (B + m - 1) / m ∧
    ∀ i, i < B → (embdStepTrigger m B i = true ↔ (i % m = m - 1 ∨ i = B - 1)) := by
  constructor
  · cases B with
    | zero =>
      simp only [embdStepCount, List.range_zero, List.filter_nil, List.length_nil]
      exact (Nat.div_eq_of_lt (by omega)).symm
    | succ b =>
      have hsplit : embdStepCount m (b + 1) = b / m + 1 := by
        unfold embdStepCount
        rw [List.range_succ, List.filter_append]
        have hlast : (List.filter (embdStepTrigger m (b + 1)) [b]).length = 1 := by
          simp [embdStepTrigger]
        have hbody : (List.filter (embdStepTrigger m (b + 1)) (List.range b)) =
            (List.range b).filter (fun i => i % m == m - 1) := by
          apply List.filter_congr
          intro i hi
          have hib : i < b := List.mem_range.mp hi
          have hfalse : ¬ (b + 1 - 1 ≤ i) := by omega
          simp [embdStepTrigger, hfalse]
          exact fun h => absurd h (by omega)
        rw [List.length_append, hlast, hbody, filter_range_mod_eq m hm b]
      rw [hsplit]
      have hBm : b + 1 + m - 1 = b + m := by omega
      rw [hBm, Nat.add_div_right b hm]
  · intro i hi
    simp only [embdStepTrigger, Bool.or_eq_true, beq_iff_eq, decide_eq_true_eq]
    generalize i % m = a
    omega

/-- C1 witness: `m = 3`, `B = 7` gives `⌈7/3⌉ = 3` steps, and batch 2
triggers a step. -/
theorem train_embd_step_count_witness :
    1 ≤ 3 ∧ (embdStepCount 3 7 = (7 + 3 - 1) / 3 ∧
      ∀ i, i < 7 → (embdStepTrigger 3 7 i = true ↔ (i % 3 = 3 - 1 ∨ i = 7 - 1))) :=
  ⟨by decide, train_embd_step_count 3 7 (by decide)⟩

theorem runInference_no_improve (hib : Bool) (maxPat : Nat) (b : ℚ) :
    ∀ (L : List ℚ) (p : Nat), (∀ x ∈ L, isBetter hib x (some b) = false) →
      runInference hib maxPat ⟨some b, p⟩ L =
        (List.range L.length).map (fun k => decide (maxPat < p + k + 1)) := by
  intro L
  induction L with
  | nil => intro p _; rfl
  | cons m ms ih =>
    intro p h
    have hm : isBetter hib m (some b) = false := h m (by simp)
    have hrest : ∀ x ∈ ms, isBetter hib x (some b) = false :=
      fun x hx => h x (by simp [hx])
    simp only [runInference, inferenceUpdate, hm, Bool.false_eq_true, if_false]
    rw [ih (p + 1) hrest]
    rw [List.length_cons, List.range_succ_eq_map, List.map_cons, List.map_map]
    congr 1
    apply List.map_congr_left
    intro k _
    simp only [Function.comp_apply]
    exact decide_eq_decide.mpr (by omega)

theorem range_map_stop_flags (n : Nat) :
    (List.range (n + 1)).map (fun k => decide (n < k + 1)) =
      List.replicate n false ++ [true] := by
  rw [List.range_succ, List.map_append]
  congr 1
  · rw [List.eq_replicate_iff]
    constructor
    · simp
    · intro c hc
      rcases List.mem_map.mp hc with ⟨k, hk, hck⟩
      have : k < n := List.mem_range.mp hk
      rw [← hck]
      simp only [decide_eq_false_iff_not]
      omega
  · simp

/-- C4: from a fresh `Trainer` state (`best_val_metric = None`,
`patience = 0`), feeding `inference` a metric followed by
`max_patience + 1` non-improving metrics (a non-improving sequence of
length `max_patience + 2`) yields `early_stop = False` on every call but
the last, and `True` exactly once, on the call where patience first
exceeds `max_patience`. -/
theorem inference_early_stop (hib : Bool) (maxPat : Nat) (m0 : ℚ) (L : List ℚ)
    (hlen : L.length = maxPat + 1)
    (hni : ∀ x ∈ L, isBetter hib x (some m0) = false) :
    runInference hib maxPat ⟨none, 0⟩ (m0 :: L) =
      List.replicate (maxPat + 1) false ++ [true] := by
  have h0 : isBetter hib m0 none = true := rfl
  simp only [runInference, inferenceUpdate, h0, if_true]
  rw [runInference_no_improve hib maxPat m0 L 0 hni, hlen]
  have hmap : (List.range (maxPat + 1)).map (fun k => decide (maxPat < 0 + k + 1)) =
      (List.range (maxPat + 1)).map (fun k => decide (maxPat < k + 1)) := by
    apply List.map_congr_left
    intro k _
    exact decide_eq_decide.mpr (by omega)
  rw [hmap, range_map_stop_flags maxPat]
  rw [List.replicate_succ, List.cons_append]

/-- C4 witness: `max_patience = 1`, metrics `[1, 1, 2]` (lower is better):
no stop, no stop, stop. -/
theorem inference_early_stop_witness :
    (([(1 : ℚ), 2] : List ℚ).length = 1 + 1 ∧
      ∀ x ∈ [(1 : ℚ), 2], isBetter false x (some 1) = false) ∧
    runInference false 1 ⟨none, 0⟩ ((1 : ℚ) :: [(1 : ℚ), 2]) =
      List.replicate (1 + 1) false ++ [true] :=
  ⟨⟨by decide, by decide⟩,
   inference_early_stop false 1 1 [(1 : ℚ), 2] (by decide) (by decide)⟩

theorem feq_self (y : FLabel) : feq y y = (y != FLabel.nan) := by
  cases y <;> simp [feq]

theorem boolSelect_map_self {α : Type} (g : α → Bool) (ys : List α) :
    boolSelect ys (ys.map g) = ys.filter g := by
  induction ys with
  | nil => rfl
  | cons y ys ih =>
    simp only [boolSelect, List.map_cons, List.zip_cons_cons, List.filter_cons]
    cases hgy : g y
    · simpa [boolSelect] using ih
    · simpa [boolSelect] using ih

theorem boolSelect_zip_pred {α β : Type} (p : β → Bool) :
    ∀ (xs : List α) (ys : List β), xs.length = ys.length →
      boolSelect xs (ys.map p) =
        ((xs.zip ys).filter (fun q => p q.2)).map (fun q => q.1) := by
  intro xs
  induction xs with
  | nil => intro ys _; rfl
  | cons x xs ih =>
    intro ys hlen
    cases ys with
    | nil => exact absurd hlen (by simp)
    | cons y ys =>
      have hl : xs.length = ys.length := by simpa using hlen
      simp only [boolSelect, List.map_cons, List.zip_cons_cons, List.filter_cons]
      cases hpy : p y
      · simpa [boolSelect] using ih ys hl
      · simpa [boolSelect] using ih ys hl

/-- C6: in both `Trainer.train` (lines 303-304) and `Trainer.inference`
(lines 378-379) the criterion is evaluated only on entries whose label
equals itself — i.e. exactly the non-NaN labels — and the NaN entries are
dropped from both predictions and labels without any error. -/
theorem nan_labels_masked (crit : List ℚ → List FLabel → ℚ)
    (preds : List ℚ) (ys : List FLabel) (hlen : preds.length = ys.length) :
    boolSelect ys (isLabeledMask ys) = ys.filter (fun y => y != FLabel.nan) ∧
    boolSelect preds (isLabeledMask ys) =
      ((preds.zip ys).filter (fun q => q.2 != FLabel.nan)).map (fun q => q.1) ∧
    maskedCriterion crit preds ys =
      crit (((preds.zip ys).filter (fun q => q.2 != FLabel.nan)).map (fun q => q.1))
        (ys.filter (fun y => y != FLabel.nan)) ∧
    ∀ y ∈ boolSelect ys (isLabeledMask ys), y ≠ FLabel.nan := by
  have hmask : isLabeledMask ys = ys.map (fun y => y != FLabel.nan) := by
    apply List.map_congr_left
    intro y _
    exact feq_self y
  have h1 : boolSelect ys (isLabeledMask ys) = ys.filter (fun y => y != FLabel.nan) := by
    rw [hmask, boolSelect_map_self]
  have h2 : boolSelect preds (isLabeledMask ys) =
      ((preds.zip ys).filter (fun q => q.2 != FLabel.nan)).map (fun q => q.1) := by
    rw [hmask, boolSelect_zip_pred (fun y => y != FLabel.nan) preds ys hlen]
  refine ⟨h1, h2, ?_, ?_⟩
  · unfold maskedCriterion
    rw [h1, h2]
  · intro y hy
    rw [h1] at hy
    have := List.of_mem_filter hy
    simpa using this

/-- C6 witness: predictions `[10, 20, 30]` against labels
`[7, NaN, 9]` keep exactly the first and third entries. -/
theorem nan_labels_masked_witness :
    ([(10 : ℚ), 20, 30] : List ℚ).length =
      ([FLabel.val 7, FLabel.nan, FLabel.val 9] : List FLabel).length ∧
    (boolSelect [FLabel.val 7, FLabel.nan, FLabel.val 9]
        (isLabeledMask [FLabel.val 7, FLabel.nan, FLabel.val 9]) =
      [FLabel.val 7, FLabel.nan, FLabel.val 9].filter (fun y => y != FLabel.nan) ∧
    boolSelect [(10 : ℚ), 20, 30]
        (isLabeledMask [FLabel.val 7, FLabel.nan, FLabel.val 9]) =
      ((([(10 : ℚ), 20, 30]).zip [FLabel.val 7, FLabel.nan, FLabel.val 9]).filter
          (fun q => q.2 != FLabel.nan)).map (fun q => q.1) ∧
    maskedCriterion (fun ps _ => ps.sum) [(10 : ℚ), 20, 30]
        [FLabel.val 7, FLabel.nan, FLabel.val 9] =
      (fun (ps : List ℚ) (_ : List FLabel) => ps.sum)
        (((([(10 : ℚ), 20, 30]).zip [FLabel.val 7, FLabel.nan, FLabel.val 9]).filter
            (fun q => q.2 != FLabel.nan)).map (fun q => q.1))
        ([FLabel.val 7, FLabel.nan, FLabel.val 9].filter (fun y => y != FLabel.nan)) ∧
    ∀ y ∈ boolSelect [FLabel.val 7, FLabel.nan, FLabel.val 9]
        (isLabeledMask [FLabel.val 7, FLabel.nan, FLabel.val 9]), y ≠ FLabel.nan) :=
  ⟨by decide,
   nan_labels_masked (fun ps _ => ps.sum) [(10 : ℚ), 20, 30]
     [FLabel.val 7, FLabel.nan, FLabel.val 9] (by decide)⟩

/-- C7: the non-test `inference` scheduler block raises the explicit
`NotImplementedError` exactly when the main scheduler, or the embedding
scheduler when present, is a `ReduceLROnPlateau`; otherwise every present
scheduler is stepped once via a no-argument `step()`. -/
theorem plateau_scheduler_rejected (s : SchedulerKind) (e : Option SchedulerKind) :
    ((schedulerBlock s e).2.isSome ↔
      (s = SchedulerKind.reduceLROnPlateau ∨ e = some SchedulerKind.reduceLROnPlateau)) ∧
    ((schedulerBlock s e).2 = none →
      (schedulerBlock s e).1 = 1 + (if e.isSome then 1 else 0)) := by
  cases s <;> rcases e with _ | e' <;> try cases e' <;> try simp [schedulerBlock]
  all_goals simp [schedulerBlock]

/-- C7 witness: both schedulers present and direction-agnostic: no raise,
two `step()` calls. -/
theorem plateau_scheduler_rejected_witness :
    ((schedulerBlock SchedulerKind.stepAgnostic (some SchedulerKind.stepAgnostic)).2.isSome ↔
      (SchedulerKind.stepAgnostic = SchedulerKind.reduceLROnPlateau ∨
        some SchedulerKind.stepAgnostic = some SchedulerKind.reduceLROnPlateau)) ∧
    ((schedulerBlock SchedulerKind.stepAgnostic (some SchedulerKind.stepAgnostic)).2 = none →
      (schedulerBlock SchedulerKind.stepAgnostic (some SchedulerKind.stepAgnostic)).1 =
        1 + (if (some SchedulerKind.stepAgnostic).isSome then 1 else 0)) :=
  plateau_scheduler_rejected SchedulerKind.stepAgnostic (some SchedulerKind.stepAgnostic)

/-- C8: `RandomSampleTopk` resolves the budget before sampling: a float
budget becomes `ceil(k * num_nodes)`, an int is used as-is, any other
type raises `TypeError` before sampling; whenever the resolved budget
covers all nodes the call returns `[graph] * ensemble` collated, without
entering the random-sampling path. -/
theorem random_sample_topk_budget (kk : SampleKArg) (ens : Nat) (g : PlainGraph)
    (r : Int) (hres : resolveK kk g.nnodes = .ok r) :
    (∀ q : ℚ, kk = .flt q → r = ⌈q * g.nnodes⌉) ∧
    (∀ z : Int, kk = .int z → r = z) ∧
    randomSampleTopkCall .other ens g = .error () ∧
    ((g.nnodes : Int) ≤ r →
      randomSampleTopkCall kk ens g = .ok (.identityReplicate (List.replicate ens g))) ∧
    (r < (g.nnodes : Int) → randomSampleTopkCall kk ens g = .ok (.stochastic r)) := by
  refine ⟨?_, ?_, rfl, ?_, ?_⟩
  · intro q hq
    subst hq
    simpa [resolveK] using hres.symm
  · intro z hz
    subst hz
    simpa [resolveK] using hres.symm
  · intro hle
    unfold randomSampleTopkCall
    rw [hres]
    simp [hle]
  · intro hlt
    unfold randomSampleTopkCall
    rw [hres]
    have hn : ¬ ((g.nnodes : Int) ≤ r) := not_le.mpr hlt
    simp [hn]

/-- C8 witness: integer budget 5 on a 3-node graph with ensemble 2:
resolved as-is and `5 ≥ 3` forces the identity-replicate path. -/
theorem random_sample_topk_budget_witness :
    resolveK (SampleKArg.int 5) (PlainGraph.mk 3 [1, 2, 3] [(0, 1)] [0]).nnodes = .ok 5 ∧
    (((PlainGraph.mk 3 [1, 2, 3] [(0, 1)] [0]).nnodes : Int) ≤ 5 →
      randomSampleTopkCall (SampleKArg.int 5) 2 (PlainGraph.mk 3 [1, 2, 3] [(0, 1)] [0]) =
        .ok (.identityReplicate (List.replicate 2 (PlainGraph.mk 3 [1, 2, 3] [(0, 1)] [0])))) :=
  ⟨rfl,
   (random_sample_topk_budget (SampleKArg.int 5) 2
     (PlainGraph.mk 3 [1, 2, 3] [(0, 1)] [0]) 5 rfl).2.2.2.1⟩

/-! ### Offset and interval lemmas for the collated node index space. -/

theorem offsetAt_cons (n : Nat) (ns : List Nat) (j : Nat) :
    offsetAt (n :: ns) (j + 1) = n + offsetAt ns j := by
  simp [offsetAt, List.take_succ_cons]

theorem offsetAt_succ (ns : List Nat) (j : Nat) (h : j < ns.length) :
    offsetAt ns (j + 1) = offsetAt ns j + ns.getD j 0 := by
  unfold offsetAt
  rw [List.getD_eq_getElem ns 0 h]
  exact List.sum_take_succ ns j h

theorem offsetAt_length_self (ns : List Nat) : offsetAt ns ns.length = ns.sum := by
  simp [offsetAt, List.take_length]

theorem offsetAt_add (ns : List Nat) (j d : Nat) :
    offsetAt ns (j + d) = offsetAt ns j + ((ns.drop j).take d).sum := by
  unfold offsetAt
  rw [List.take_add, List.sum_append]

theorem offsetAt_le (ns : List Nat) {j k : Nat} (h : j ≤ k) :
    offsetAt ns j ≤ offsetAt ns k := by
  obtain ⟨d, rfl⟩ := Nat.exists_eq_add_of_le h
  rw [offsetAt_add]
  omega

theorem offsetAt_lt (ns : List Nat) (hpos : ∀ n ∈ ns, 0 < n) {j k : Nat}
    (hjk : j < k) (hk : k ≤ ns.length) : offsetAt ns j < offsetAt ns k := by
  have hj : j < ns.length := lt_of_lt_of_le hjk hk
  have h1 : offsetAt ns (j + 1) ≤ offsetAt ns k := offsetAt_le ns hjk
  have h2 : offsetAt ns (j + 1) = offsetAt ns j + ns.getD j 0 := offsetAt_succ ns j hj
  have h3 : 0 < ns.getD j 0 := by
    rw [List.getD_eq_getElem ns 0 hj]
    exact hpos _ (List.getElem_mem hj)
  omega

theorem exists_interval : ∀ (ns : List Nat) (v : Nat), v < ns.sum →
    ∃ j, j < ns.length ∧ offsetAt ns j ≤ v ∧ v < offsetAt ns j + ns.getD j 0 := by
  intro ns
  induction ns with
  | nil => intro v hv; simp at hv
  | cons n t ih =>
    intro v hv
    by_cases hvn : v < n
    · refine ⟨0, by simp, by simp [offsetAt], ?_⟩
      simpa [offsetAt] using hvn
    · have hv' : v - n < t.sum := by
        rw [List.sum_cons] at hv
        omega
      obtain ⟨j, hj, h1, h2⟩ := ih (v - n) hv'
      refine ⟨j + 1, by simpa using Nat.succ_lt_succ hj, ?_, ?_⟩
      · rw [offsetAt_cons]
        omega
      · rw [offsetAt_cons, List.getD_cons_succ]
        omega

theorem interval_unique (ns : List Nat) {v j k : Nat}
    (hj : j < ns.length ∧ offsetAt ns j ≤ v ∧ v < offsetAt ns j + ns.getD j 0)
    (hk : k < ns.length ∧ offsetAt ns k ≤ v ∧ v < offsetAt ns k + ns.getD k 0) :
    j = k := by
  by_contra hne
  rcases Nat.lt_or_ge j k with h | h
  · have h2 := offsetAt_succ ns j hj.1
    have hle := offsetAt_le ns (show j + 1 ≤ k from h)
    omega
  · have hkj : k < j := by omega
    have h2 := offsetAt_succ ns k hk.1
    have hle := offsetAt_le ns (show k + 1 ≤ j from hkj)
    omega

/-! ### Candidate grid and edge collation lemmas. -/

theorem length_fullGrid (n : Nat) : (fullGrid n).length = n * n := by
  unfold fullGrid
  rw [List.length_flatMap]
  have h1 : List.map (List.length ∘ fun a => (List.range n).map (fun b => (a, b)))
      (List.range n) = List.replicate (List.range n).length n :=
    List.map_eq_replicate_iff.mpr (by intro x _; simp)
  rw [h1, List.length_range, List.sum_replicate, smul_eq_mul]

theorem mem_fullGrid {n : Nat} {p : Nat × Nat} : p ∈ fullGrid n ↔ p.1 < n ∧ p.2 < n := by
  unfold fullGrid
  constructor
  · intro hp
    rcases List.mem_flatMap.mp hp with ⟨a, ha, hpa⟩
    rcases List.mem_map.mp hpa with ⟨b, hb, rfl⟩
    exact ⟨List.mem_range.mp ha, List.mem_range.mp hb⟩
  · rintro ⟨h1, h2⟩
    exact List.mem_flatMap.mpr
      ⟨p.1, List.mem_range.mpr h1, List.mem_map.mpr ⟨p.2, List.mem_range.mpr h2, by simp⟩⟩

theorem withOffsets_length : ∀ (gs : List PlainGraph) (o : Nat),
    (withOffsets o gs).length = (gs.map (fun g => g.edge_index.length)).sum := by
  intro gs
  induction gs with
  | nil => intro o; rfl
  | cons g rest ih => intro o; simp [withOffsets, ih]

theorem mem_withOffsets : ∀ (gs : List PlainGraph) (o : Nat) (e : Nat × Nat),
    e ∈ withOffsets o gs →
    (∀ g ∈ gs, ∀ p ∈ g.edge_index, p.1 < g.nnodes ∧ p.2 < g.nnodes) →
    ∃ j, j < gs.length ∧
      o + offsetAt (gs.map (·.nnodes)) j ≤ e.1 ∧
      e.1 < o + offsetAt (gs.map (·.nnodes)) j + (gs.map (·.nnodes)).getD j 0 ∧
      o + offsetAt (gs.map (·.nnodes)) j ≤ e.2 ∧
      e.2 < o + offsetAt (gs.map (·.nnodes)) j + (gs.map (·.nnodes)).getD j 0 := by
  intro gs
  induction gs with
  | nil => intro o e he _; simp [withOffsets] at he
  | cons g rest ih =>
    intro o e he hloc
    rcases List.mem_append.mp he with hh | ht
    · rcases List.mem_map.mp hh with ⟨p, hp, rfl⟩
      have hb := hloc g (by simp) p hp
      refine ⟨0, by simp, ?_, ?_, ?_, ?_⟩ <;>
        · simp only [List.map_cons, offsetAt, List.take_zero, List.sum_nil,
            List.getD_cons_zero]
          simp <;> omega
    · obtain ⟨j, hj, h1, h2, h3, h4⟩ :=
        ih (o + g.nnodes) e ht (fun g' hg' => hloc g' (by simp [hg']))
      refine ⟨j + 1, by simpa using Nat.succ_lt_succ hj, ?_, ?_, ?_, ?_⟩ <;>
        · simp only [List.map_cons, offsetAt_cons, List.getD_cons_succ]
          omega

theorem keepNonzero_subset {edges : List (Nat × Nat)} {w : List ℚ} {e : Nat × Nat}
    (he : e ∈ keepNonzero edges w) : e ∈ edges := by
  unfold keepNonzero at he
  obtain ⟨⟨a, b⟩, hq, rfl⟩ := List.mem_map.mp he
  exact (List.of_mem_zip (List.mem_of_mem_filter hq)).1

theorem mem_rewiredList {E : Nat} {ι : Bool} {gs : List PlainGraph} {h : PlainGraph}
    (hh : h ∈ rewiredList E ι gs) : (∃ g ∈ gs, h = candGraph g) ∨ h ∈ gs := by
  unfold rewiredList at hh
  rcases List.mem_append.mp hh with h1 | h2
  · rcases List.mem_flatten.mp h1 with ⟨l, hl, hml⟩
    have hlg := (List.mem_replicate.mp hl).2
    subst hlg
    rcases List.mem_map.mp hml with ⟨g, hg, rfl⟩
    exact Or.inl ⟨g, hg, rfl⟩
  · cases ι with
    | false => simp at h2
    | true => exact Or.inr (by simpa using h2)

theorem rewiredList_nnodes_pos {E : Nat} {ι : Bool} {gs : List PlainGraph}
    (hpos : ∀ g ∈ gs, 0 < g.nnodes) :
    ∀ h ∈ rewiredList E ι gs, 0 < h.nnodes := by
  intro h hh
  rcases mem_rewiredList hh with ⟨g, hg, rfl⟩ | hg
  · exact hpos g hg
  · exact hpos h hg

theorem rewiredList_edges_local {E : Nat} {ι : Bool} {gs : List PlainGraph}
    (hloc : ∀ g ∈ gs, ∀ p ∈ g.edge_index, p.1 < g.nnodes ∧ p.2 < g.nnodes) :
    ∀ h ∈ rewiredList E ι gs, ∀ p ∈ h.edge_index, p.1 < h.nnodes ∧ p.2 < h.nnodes := by
  intro h hh p hp
  rcases mem_rewiredList hh with ⟨g, hg, rfl⟩ | hg
  · exact mem_fullGrid.mp hp
  · exact hloc h hg p hp

/-! ### Replication lemmas for the ensemble branch. -/

theorem flatten_replicate_flatMap {α β : Type} (E : Nat) (l : List α) (f : α → List β) :
    ((List.replicate E l).flatten).flatMap f = (List.replicate E (l.flatMap f)).flatten := by
  induction E with
  | zero => rfl
  | succ E ih =>
    rw [List.replicate_succ, List.flatten_cons, List.flatMap_append, ih,
      List.replicate_succ, List.flatten_cons]

theorem rewiredList_x (E : Nat) (ι : Bool) (gs : List PlainGraph) :
    (rewiredList E ι gs).flatMap (·.x) =
      (List.replicate E (gs.flatMap (·.x))).flatten ++
        (if ι then gs.flatMap (·.x) else []) := by
  unfold rewiredList
  rw [List.flatMap_append, flatten_replicate_flatMap, List.flatMap_map]
  congr 1
  cases ι <;> simp

theorem sum_map_eq_of_zip {α β : Type} (f : α → Nat) (g : β → Nat) :
    ∀ (xs : List α) (ys : List β), xs.length = ys.length →
      (∀ pr ∈ xs.zip ys, f pr.1 = g pr.2) → (xs.map f).sum = (ys.map g).sum := by
  intro xs
  induction xs with
  | nil =>
    intro ys h _
    cases ys with
    | nil => rfl
    | cons y ys => simp at h
  | cons x xs ih =>
    intro ys h hz
    cases ys with
    | nil => simp at h
    | cons y ys =>
      simp only [List.map_cons, List.sum_cons]
      rw [hz (x, y) (by simp), ih ys (by simpa using h)
        (fun pr hpr => hz pr (by simp [List.zip_cons_cons, hpr]))]

theorem ensembleColumn_length (e : Nat) (gsMask : MaskTensor) :
    (ensembleColumn e gsMask).length = (gsMask.map (·.length)).sum := by
  unfold ensembleColumn
  rw [List.length_flatMap]
  congr 1
  apply List.map_congr_left
  intro gm _
  simp

theorem flatSampleWeights_length (E : Nat) (gsMask : MaskTensor) :
    (flatSampleWeights E gsMask).length = E * (gsMask.map (·.length)).sum := by
  unfold flatSampleWeights
  rw [List.length_flatMap]
  have h1 : List.map (List.length ∘ fun e => ensembleColumn e gsMask) (List.range E) =
      List.replicate (List.range E).length ((gsMask.map (·.length)).sum) :=
    List.map_eq_replicate_iff.mpr (by intro e _; simp [ensembleColumn_length])
  rw [h1, List.length_range, List.sum_replicate, smul_eq_mul]

theorem rewiredList_edge_lengths (E : Nat) (ι : Bool) (gs : List PlainGraph) :
    ((rewiredList E ι gs).map (fun g => g.edge_index.length)).sum =
      E * (gs.map (fun g => g.nnodes * g.nnodes)).sum +
        (if ι then totalEdges gs else 0) := by
  unfold rewiredList
  rw [List.map_append, List.sum_append]
  congr 1
  · rw [List.map_flatten, List.map_replicate, List.sum_flatten, List.map_replicate,
      List.sum_replicate, smul_eq_mul, List.map_map]
    have h1 : ((fun g => g.edge_index.length) ∘ candGraph) =
        fun g : PlainGraph => g.nnodes * g.nnodes := by
      funext g
      simp [candGraph, length_fullGrid]
    rw [h1]
  · cases ι <;> simp [totalEdges]

theorem flatten_replicate_getD : ∀ (k : Nat) (l : List Nat) (r v : Nat), r < k →
    v < l.length →
    ((List.replicate k l).flatten).getD (r * l.length + v) 0 = l.getD v 0 := by
  intro k
  induction k with
  | zero => intro l r v hr _; omega
  | succ k ih =>
    intro l r v hr hv
    rw [List.replicate_succ, List.flatten_cons]
    cases r with
    | zero =>
      simp only [Nat.zero_mul, Nat.zero_add]
      exact List.getD_append l _ 0 v hv
    | succ r =>
      have hlen : l.length ≤ (r + 1) * l.length + v := by
        have h1 : l.length ≤ (r + 1) * l.length := Nat.le_mul_of_pos_left _ (by omega)
        omega
      rw [List.getD_append_right l _ 0 _ hlen]
      have heq : (r + 1) * l.length + v - l.length = r * l.length + v := by
        have h1 : (r + 1) * l.length = r * l.length + l.length := by ring
        omega
      rw [heq]
      exact ih l r v (by omega) hv

theorem batchVecFrom_length : ∀ (gs : List PlainGraph) (i : Nat),
    (batchVecFrom i gs).length = totalNodes gs := by
  intro gs
  induction gs with
  | nil => intro i; simp [batchVecFrom, totalNodes]
  | cons g rest ih => intro i; simp [batchVecFrom, totalNodes, ih, totalNodes]

/-! ### Zip-block lemmas for the single-ensemble branch. -/

theorem zip_flatMap_blocks {α β γ : Type} (f : α → List β) (g : α → List γ) :
    ∀ l : List α, (∀ x ∈ l, (f x).length = (g x).length) →
      (l.flatMap f).zip (l.flatMap g) = l.flatMap (fun x => (f x).zip (g x)) := by
  intro l
  induction l with
  | nil => intro _; rfl
  | cons x xs ih =>
    intro h
    rw [List.flatMap_cons, List.flatMap_cons, List.flatMap_cons,
      List.zip_append (h x (by simp)), ih (fun y hy => h y (by simp [hy]))]

theorem zip_replicate_fst {α β : Type} (a : α) : ∀ l : List β,
    (List.replicate l.length a).zip l = l.map (fun b => (a, b)) := by
  intro l
  induction l with
  | nil => rfl
  | cons b t ih =>
    rw [List.length_cons, List.replicate_succ, List.zip_cons_cons, ih, List.map_cons]

theorem zip_replicate_snd {α β : Type} (b : β) : ∀ l : List α,
    l.zip (List.replicate l.length b) = l.map (fun x => (x, b)) := by
  intro l
  induction l with
  | nil => rfl
  | cons a t ih =>
    rw [List.length_cons, List.replicate_succ, List.zip_cons_cons, ih, List.map_cons]

theorem seRow_length (n : Nat) : (seRow n).length = n * n := by
  unfold seRow
  rw [List.length_flatMap]
  have h1 : List.map (List.length ∘ fun a => List.replicate n a) (List.range n) =
      List.replicate (List.range n).length n :=
    List.map_eq_replicate_iff.mpr (by intro x _; simp)
  rw [h1, List.length_range, List.sum_replicate, smul_eq_mul]

theorem seCol_length (n : Nat) : (seCol n).length = n * n := by
  unfold seCol
  rw [List.length_flatten, List.map_replicate, List.sum_replicate, List.length_range,
    smul_eq_mul]

theorem seCol_eq_flatMap (n : Nat) :
    seCol n = (List.range n).flatMap (fun _ => List.range n) := by
  unfold seCol
  rw [List.flatMap_def]
  congr 1
  rw [show List.map (fun _ : ℕ => List.range n) (List.range n) =
      List.replicate (List.range n).length (List.range n) from List.map_const _ _,
    List.length_range]

theorem seRow_zip_seCol (n : Nat) : (seRow n).zip (seCol n) = fullGrid n := by
  rw [seCol_eq_flatMap]
  unfold seRow fullGrid
  rw [zip_flatMap_blocks _ _ (List.range n) (by intro a _; simp)]
  apply List.flatMap_congr
  intro a _
  have h1 : (List.replicate n a).zip (List.range n) =
      (List.replicate (List.range n).length a).zip (List.range n) := by
    rw [List.length_range]
  rw [h1, zip_replicate_fst]

theorem singleCandidates_from : ∀ (gs : List PlainGraph) (o : Nat),
    ((((gs.flatMap (fun g => seRow g.nnodes)).zip
        (gs.flatMap (fun g => seCol g.nnodes))).zip
          (edgeIncFrom o gs)).map (fun p => (p.1.1 + p.2, p.1.2 + p.2))) =
      withOffsets o (gs.map candGraph) := by
  intro gs
  induction gs with
  | nil => intro o; rfl
  | cons g rest ih =>
    intro o
    rw [List.flatMap_cons, List.flatMap_cons]
    simp only [edgeIncFrom]
    rw [List.zip_append (by rw [seRow_length, seCol_length])]
    rw [List.zip_append
      (by rw [List.length_zip, seRow_length, seCol_length, List.length_replicate]; simp)]
    rw [List.map_append]
    simp only [List.map_cons, withOffsets]
    congr 1
    · rw [seRow_zip_seCol]
      have h1 : (fullGrid g.nnodes).zip (List.replicate (g.nnodes * g.nnodes) o) =
          (fullGrid g.nnodes).zip (List.replicate (fullGrid g.nnodes).length o) := by
        rw [length_fullGrid]
      rw [h1, zip_replicate_snd, List.map_map]
      rfl
    · exact ih (o + g.nnodes)

theorem singleCandidates_eq (gs : List PlainGraph) :
    singleCandidates gs = withOffsets 0 (gs.map candGraph) := by
  unfold singleCandidates rowCat colCat edgeIncRI
  exact singleCandidates_from gs 0

theorem map_candGraph_nnodes (gs : List PlainGraph) :
    (gs.map candGraph).map (·.nnodes) = gs.map (·.nnodes) := by
  rw [List.map_map]
  rfl

theorem singleCandidates_length (gs : List PlainGraph) :
    (singleCandidates gs).length = (gs.map (fun g => g.nnodes * g.nnodes)).sum := by
  rw [singleCandidates_eq, withOffsets_length, List.map_map]
  congr 1
  apply List.map_congr_left
  intro g _
  simp [candGraph, length_fullGrid]

end PRMPNN

namespace PRMPNN

/-- C2: the batch produced by the rewiring step has per-graph/per-replicate
node ranges given by cumulative offsets that are contiguous, strictly
increasing (for nonempty graphs), and partition the global node index
space with no gaps or overlaps; every edge of the ensemble branch's
training batch lies inside the range of its own replicate, the
validation-mode edges are a subset of those, and every candidate edge of
the single-ensemble branch lies inside its own graph's range. -/
theorem rewired_batch_partition (E : Nat) (ι : Bool) (gs : List PlainGraph)
    (gsMask : MaskTensor)
    (hpos : ∀ g ∈ gs, 0 < g.nnodes)
    (hloc : ∀ g ∈ gs, ∀ p ∈ g.edge_index, p.1 < g.nnodes ∧ p.2 < g.nnodes) :
    (∀ j, j < (rewiredList E ι gs).length →
      offsetAt ((rewiredList E ι gs).map (·.nnodes)) (j + 1) =
        offsetAt ((rewiredList E ι gs).map (·.nnodes)) j +
          ((rewiredList E ι gs).map (·.nnodes)).getD j 0) ∧
    (∀ j k, j < k → k ≤ (rewiredList E ι gs).length →
      offsetAt ((rewiredList E ι gs).map (·.nnodes)) j <
        offsetAt ((rewiredList E ι gs).map (·.nnodes)) k) ∧
    (∀ v, v < totalNodes (rewiredList E ι gs) →
      ∃! j, j < (rewiredList E ι gs).length ∧
        offsetAt ((rewiredList E ι gs).map (·.nnodes)) j ≤ v ∧
        v < offsetAt ((rewiredList E ι gs).map (·.nnodes)) j +
          ((rewiredList E ι gs).map (·.nnodes)).getD j 0) ∧
    (∀ e ∈ (multiRewire true ι E gs gsMask).edge_index,
      ∃ j, j < (rewiredList E ι gs).length ∧
        offsetAt ((rewiredList E ι gs).map (·.nnodes)) j ≤ e.1 ∧
        e.1 < offsetAt ((rewiredList E ι gs).map (·.nnodes)) j +
          ((rewiredList E ι gs).map (·.nnodes)).getD j 0 ∧
        offsetAt ((rewiredList E ι gs).map (·.nnodes)) j ≤ e.2 ∧
        e.2 < offsetAt ((rewiredList E ι gs).map (·.nnodes)) j +
          ((rewiredList E ι gs).map (·.nnodes)).getD j 0) ∧
    (∀ e ∈ (multiRewire false ι E gs gsMask).edge_index,
      e ∈ (multiRewire true ι E gs gsMask).edge_index) ∧
    (∀ e ∈ (singleRewire true gs gsMask).edge_index,
      ∃ j, j < gs.length ∧
        offsetAt (gs.map (·.nnodes)) j ≤ e.1 ∧
        e.1 < offsetAt (gs.map (·.nnodes)) j + (gs.map (·.nnodes)).getD j 0 ∧
        offsetAt (gs.map (·.nnodes)) j ≤ e.2 ∧
        e.2 < offsetAt (gs.map (·.nnodes)) j + (gs.map (·.nnodes)).getD j 0) := by
  have hploc := rewiredList_edges_local (E := E) (ι := ι) hloc
  have hppos := rewiredList_nnodes_pos (E := E) (ι := ι) hpos
  refine ⟨?_, ?_, ?_, ?_, ?_, ?_⟩
  · intro j hj
    exact offsetAt_succ _ j (by simpa using hj)
  · intro j k hjk hk
    refine offsetAt_lt _ ?_ hjk (by simpa using hk)
    intro n hn
    rcases List.mem_map.mp hn with ⟨h, hh, rfl⟩
    exact hppos h hh
  · intro v hv
    obtain ⟨j, hj, h1, h2⟩ := exists_interval _ v hv
    refine ⟨j, ⟨by simpa using hj, h1, h2⟩, ?_⟩
    intro y hy
    exact interval_unique _ ⟨by simpa using hy.1, hy.2.1, hy.2.2⟩ ⟨hj, h1, h2⟩
  · intro e he
    simp only [multiRewire, if_true] at he
    obtain ⟨j, hj, h1, h2, h3, h4⟩ := mem_withOffsets _ 0 e he hploc
    simp only [Nat.zero_add] at h1 h2 h3 h4
    exact ⟨j, by simpa using hj, h1, h2, h3, h4⟩
  · intro e he
    simp only [multiRewire] at he ⊢
    simp only [if_true, Bool.false_eq_true, if_false] at he ⊢
    exact keepNonzero_subset he
  · intro e he
    simp only [singleRewire, if_true] at he
    rw [singleCandidates_eq] at he
    have hcloc : ∀ g' ∈ gs.map candGraph, ∀ p ∈ g'.edge_index,
        p.1 < g'.nnodes ∧ p.2 < g'.nnodes := by
      intro g' hg' p hp
      rcases List.mem_map.mp hg' with ⟨g, _, rfl⟩
      exact mem_fullGrid.mp hp
    obtain ⟨j, hj, h1, h2, h3, h4⟩ := mem_withOffsets _ 0 e he hcloc
    rw [map_candGraph_nnodes] at h1 h2 h3 h4
    simp only [Nat.zero_add] at h1 h2 h3 h4
    exact ⟨j, by simpa using hj, h1, h2, h3, h4⟩

/-- C2 witness: two graphs (2 and 1 nodes), ensemble 2 with the original
copies appended. -/
theorem rewired_batch_partition_witness :
    ((∀ g ∈ [PlainGraph.mk 2 [1, 2] [(0, 1)] [0], PlainGraph.mk 1 [3] [] [1]],
        0 < g.nnodes) ∧
      (∀ g ∈ [PlainGraph.mk 2 [1, 2] [(0, 1)] [0], PlainGraph.mk 1 [3] [] [1]],
        ∀ p ∈ g.edge_index, p.1 < g.nnodes ∧ p.2 < g.nnodes)) ∧
    (∀ v, v < totalNodes (rewiredList 2 true
        [PlainGraph.mk 2 [1, 2] [(0, 1)] [0], PlainGraph.mk 1 [3] [] [1]]) →
      ∃! j, j < (rewiredList 2 true
          [PlainGraph.mk 2 [1, 2] [(0, 1)] [0], PlainGraph.mk 1 [3] [] [1]]).length ∧
        offsetAt ((rewiredList 2 true
          [PlainGraph.mk 2 [1, 2] [(0, 1)] [0], PlainGraph.mk 1 [3] [] [1]]).map
            (·.nnodes)) j ≤ v ∧
        v < offsetAt ((rewiredList 2 true
          [PlainGraph.mk 2 [1, 2] [(0, 1)] [0], PlainGraph.mk 1 [3] [] [1]]).map
            (·.nnodes)) j +
          ((rewiredList 2 true
            [PlainGraph.mk 2 [1, 2] [(0, 1)] [0], PlainGraph.mk 1 [3] [] [1]]).map
              (·.nnodes)).getD j 0) :=
  ⟨⟨by decide, by decide⟩,
   (rewired_batch_partition 2 true
     [PlainGraph.mk 2 [1, 2] [(0, 1)] [0], PlainGraph.mk 1 [3] [] [1]] []
     (by decide) (by decide)).2.2.1⟩

/-- C3: the ensemble branch replicates the per-graph node data `E` times
(plus one untouched copy when the original graph is included), attaches
the flattened sampled weights concatenated with a unit-weight block of
length `num_edges` for the original copy (whose edges thus bypass the
sampling weights), the weight vector covers the collated edge list
exactly, and the new `batch` vector is the original one tiled over every
ensemble/original block, so node `v` of block `r` keeps the original
graph id of node `v`. -/
theorem ensemble_replication (train : Bool) (E : Nat) (ι : Bool)
    (gs : List PlainGraph) (gsMask : MaskTensor)
    (hmask : gsMask.length = gs.length)
    (hsq : ∀ pr ∈ gsMask.zip gs, pr.1.length = pr.2.nnodes * pr.2.nnodes) :
    (multiRewire train ι E gs gsMask).x =
      (List.replicate E (gs.flatMap (·.x))).flatten ++
        (if ι then gs.flatMap (·.x) else []) ∧
    (multiRewire true ι E gs gsMask).edge_weight =
      some (flatSampleWeights E gsMask ++
        (if ι then List.replicate (totalEdges gs) (1 : ℚ) else [])) ∧
    (batchEdges (rewiredList E ι gs)).length =
      (flatSampleWeights E gsMask).length + (if ι then totalEdges gs else 0) ∧
    (multiRewire train ι E gs gsMask).batchVec =
      tileNat (E + (if ι then 1 else 0)) (origBatchVec gs) ∧
    (∀ r v, r < E + (if ι then 1 else 0) → v < totalNodes gs →
      ((multiRewire train ι E gs gsMask).batchVec).getD (r * totalNodes gs + v) 0 =
        (origBatchVec gs).getD v 0) := by
  refine ⟨?_, ?_, ?_, ?_, ?_⟩
  · show (rewiredList E ι gs).flatMap (·.x) = _
    exact rewiredList_x E ι gs
  · simp [multiRewire]
  · rw [batchEdges, withOffsets_length, rewiredList_edge_lengths,
      flatSampleWeights_length]
    congr 2
    exact (sum_map_eq_of_zip _ _ gsMask gs hmask hsq).symm
  · rfl
  · intro r v hr hv
    show (tileNat (E + (if ι then 1 else 0)) (origBatchVec gs)).getD
      (r * totalNodes gs + v) 0 = _
    have hlen : (origBatchVec gs).length = totalNodes gs := batchVecFrom_length gs 0
    have hmain := flatten_replicate_getD (E + (if ι then 1 else 0)) (origBatchVec gs)
      r v hr (by rw [hlen]; exact hv)
    rw [hlen] at hmain
    exact hmain

/-- C3 witness: one 1-node graph, ensemble 2 plus the original copy. -/
theorem ensemble_replication_witness :
    (([[[ (5 : ℚ) ]]] : MaskTensor).length =
        [PlainGraph.mk 1 [7] [(0, 0)] [0]].length ∧
      ∀ pr ∈ ([[[ (5 : ℚ) ]]] : MaskTensor).zip [PlainGraph.mk 1 [7] [(0, 0)] [0]],
        pr.1.length = pr.2.nnodes * pr.2.nnodes) ∧
    ((multiRewire true true 2 [PlainGraph.mk 1 [7] [(0, 0)] [0]]
        [[[ (5 : ℚ) ]]]).batchVec =
      tileNat (2 + (if true then 1 else 0))
        (origBatchVec [PlainGraph.mk 1 [7] [(0, 0)] [0]])) :=
  ⟨⟨by decide, by decide⟩,
   (ensemble_replication true 2 true [PlainGraph.mk 1 [7] [(0, 0)] [0]]
     [[[ (5 : ℚ) ]]] (by decide) (by decide)).2.2.2.1⟩

/-- C5: in the `ensemble = 1`, no-original branch, training keeps the
whole validity-restricted fully-connected candidate edge set (per-graph
`n²` grids with cumulative offsets) with the sampled mask attached as the
per-edge weight — so zero-weight edges stay and the edge count is
independent of the mask — while at validation/inference exactly the
zero-weight candidates are physically removed and the edge-weight channel
is cleared. -/
theorem single_branch_rewire (gs : List PlainGraph) (gsMask : MaskTensor) :
    (singleRewire true gs gsMask).edge_index = singleCandidates gs ∧
    singleCandidates gs = withOffsets 0 (gs.map candGraph) ∧
    (singleRewire true gs gsMask).edge_weight = some (singleWeights gsMask) ∧
    (singleRewire true gs gsMask).edge_index.length =
      (gs.map (fun g => g.nnodes * g.nnodes)).sum ∧
    (singleRewire false gs gsMask).edge_index =
      (((singleCandidates gs).zip (singleWeights gsMask)).filter
        (fun p => p.2 != 0)).map (fun p => p.1) ∧
    (singleRewire false gs gsMask).edge_weight = none := by
  refine ⟨rfl, singleCandidates_eq gs, rfl, ?_, rfl, rfl⟩
  show (singleCandidates gs).length = _
  exact singleCandidates_length gs

/-- C9 (code bug, `trainer.py` line 226 vs line 215): the plot loop
classifies list index `i` as an original-graph copy when
`i ≥ unique_graphs·n_ensemble − 1`, yet with `unique_graphs = 2`,
`n_ensemble = 3` index `5 = 2·3 − 1` is the last rewired sample: the
original-graph block of the data list is exactly its last `unique_graphs`
entries, starting at `2·3 = 6`, and entry 5 is a full-grid rewired copy,
not an original. -/
theorem plot_version_boundary_bug :
    plotGraphVersionIsOriginal 2 3 5 = true ∧
    ¬ (2 * 3 ≤ 5) ∧
    (rewiredList 3 true
        [PlainGraph.mk 2 [1, 2] [(0, 1)] [0],
         PlainGraph.mk 2 [3, 4] [(1, 0)] [1]]).drop (2 * 3) =
      [PlainGraph.mk 2 [1, 2] [(0, 1)] [0],
       PlainGraph.mk 2 [3, 4] [(1, 0)] [1]] ∧
    (rewiredList 3 true
        [PlainGraph.mk 2 [1, 2] [(0, 1)] [0],
         PlainGraph.mk 2 [3, 4] [(1, 0)] [1]]).getD 5 default =
      candGraph (PlainGraph.mk 2 [3, 4] [(1, 0)] [1]) ∧
    candGraph (PlainGraph.mk 2 [3, 4] [(1, 0)] [1]) ≠
      PlainGraph.mk 2 [3, 4] [(1, 0)] [1] := by
  refine ⟨by decide, by decide, by decide, by decide, by decide⟩

/-- C10: when `sample_policy is None or imle_configs is None`,
`construct_duplicate_data` is `lambda x, *args: (x, None)`: the batch —
its edge set, edge weights, features, batch vector and targets — passes
through unchanged, and the auxiliary loss is `None`. -/
theorem construct_duplicate_data_identity (spNone icNone : Bool) (b : BatchedGraph)
    (rwd : BatchedGraph × Option ℚ) (h : spNone = true ∨ icNone = true) :
    construct_duplicate_data spNone icNone b rwd = (b, none) ∧
    (construct_duplicate_data spNone icNone b rwd).1.edge_index = b.edge_index ∧
    (construct_duplicate_data spNone icNone b rwd).1.edge_weight = b.edge_weight ∧
    (construct_duplicate_data spNone icNone b rwd).1.x = b.x ∧
    (construct_duplicate_data spNone icNone b rwd).1.batchVec = b.batchVec ∧
    (construct_duplicate_data spNone icNone b rwd).1.y = b.y ∧
    (construct_duplicate_data spNone icNone b rwd).2 = none := by
  have hor : (spNone || icNone) = true := by rcases h with h | h <;> simp [h]
  simp [construct_duplicate_data, hor]

/-- C10 witness: `sample_policy = None` with a nontrivial pending rewire
result. -/
theorem construct_duplicate_data_identity_witness :
    (true = true ∨ false = true) ∧
    (construct_duplicate_data true false
        (BatchedGraph.mk [1] [(0, 0)] none [0] [5])
        (BatchedGraph.mk [] [] none [] [], some 3) =
      (BatchedGraph.mk [1] [(0, 0)] none [0] [5], none) ∧
    (construct_duplicate_data true false
        (BatchedGraph.mk [1] [(0, 0)] none [0] [5])
        (BatchedGraph.mk [] [] none [] [], some 3)).1.edge_index =
      (BatchedGraph.mk [1] [(0, 0)] none [0] [5]).edge_index ∧
    (construct_duplicate_data true false
        (BatchedGraph.mk [1] [(0, 0)] none [0] [5])
        (BatchedGraph.mk [] [] none [] [], some 3)).1.edge_weight =
      (BatchedGraph.mk [1] [(0, 0)] none [0] [5]).edge_weight ∧
    (construct_duplicate_data true false
        (BatchedGraph.mk [1] [(0, 0)] none [0] [5])
        (BatchedGraph.mk [] [] none [] [], some 3)).1.x =
      (BatchedGraph.mk [1] [(0, 0)] none [0] [5]).x ∧
    (construct_duplicate_data true false
        (BatchedGraph.mk [1] [(0, 0)] none [0] [5])
        (BatchedGraph.mk [] [] none [] [], some 3)).1.batchVec =
      (BatchedGraph.mk [1] [(0, 0)] none [0] [5]).batchVec ∧
    (construct_duplicate_data true false
        (BatchedGraph.mk [1] [(0, 0)] none [0] [5])
        (BatchedGraph.mk [] [] none [] [], some 3)).1.y =
      (BatchedGraph.mk [1] [(0, 0)] none [0] [5]).y ∧
    (construct_duplicate_data true false
        (BatchedGraph.mk [1] [(0, 0)] none [0] [5])
        (BatchedGraph.mk [] [] none [] [], some 3)).2 = none) :=
  ⟨Or.inl rfl,
   construct_duplicate_data_identity true false
     (BatchedGraph.mk [1] [(0, 0)] none [0] [5])
     (BatchedGraph.mk [] [] none [] [], some 3) (Or.inl rfl)⟩

end PRMPNN
